import Mathlib

/-!
Shallow embedding of `Xray/detection_chunk.py` from the Nationcraft repository.

The script scans Minecraft world chunks for specific block types.  Blocks and
chunks are decoded by an external provider (the `chunks`/`anvil` modules); we
model a decoded block as a record of its numeric id and coordinates, and a
decoded chunk as its grid coordinates together with the flat block list the
provider would return for it.  Python dictionaries (which preserve insertion
order and update values in place) are modelled as association lists with the
corresponding update operations.
-/

namespace Nationcraft

/-- A decoded block: integer id and integer coordinates (provider contract,
spec section 6). -/
structure Block where
  id : Int
  x : Int
  y : Int
  z : Int
deriving DecidableEq, Repr

/-- A coordinate record `{x, y, z}` as produced by `find_blocks_by_id`. -/
structure Coord where
  x : Int
  y : Int
  z : Int
deriving DecidableEq, Repr

/-- A decoded chunk: grid coordinates `x`, `z` and the block list the external
provider returns for it via `chunks.get_chunk_matrice`. -/
structure Chunk where
  x : Int
  z : Int
  blocks : List Block
deriving DecidableEq, Repr

/-- Modelled from the spec: the external provider operation
`chunks.get_chunk_matrice` (the `chunks` module is not under `src/`); per the
provider contract it yields the chunk's flat list of decoded blocks. -/
def get_chunk_matrice (c : Chunk) : List Block := c.blocks

/-- Python `dict.get(k)` on an association list: the value at the first
matching key, `none` when the key is absent. -/
def assocGet {α β : Type} [DecidableEq α] (d : List (α × β)) (k : α) : Option β :=
  match d with
  | [] => none
  | (k₁, v) :: rest => if k₁ = k then some v else assocGet rest k

/-- Python `d[k] = v` on an association list: update in place when the key is
present (keeping its position), append otherwise. -/
def assocSet {α β : Type} [DecidableEq α] (d : List (α × β)) (k : α) (v : β) :
    List (α × β) :=
  match d with
  | [] => [(k, v)]
  | (k₁, v₁) :: rest =>
    if k₁ = k then (k₁, v) :: rest else (k₁, v₁) :: assocSet rest k v

/-- The `block_counts[name] += 1` / `= 1` update of `count_blocks_in_chunk`
(lines 101-105): increment in place when the key is present, append `(k, 1)`
otherwise. -/
def bumpCount (d : List (String × Nat)) (k : String) : List (String × Nat) :=
  match d with
  | [] => [(k, 1)]
  | (k₁, v₁) :: rest =>
    if k₁ = k then (k₁, v₁ + 1) :: rest else (k₁, v₁) :: bumpCount rest k

/-- `BLOCK_ID_NAMES` (lines 6-28): the static id → name table; the entry for
id 0 carries `None` (air blocks to skip). -/
def BLOCK_ID_NAMES : List (Int × Option String) :=
  [ (3658, some "server")
  , (54, some "chest")
  , (146, some "chest")
  , (3886, some "rf")
  , (3664, some "electric_meter")
  , (158, some "dropper")
  , (3574, some "switch")
  , (3575, some "repair_machine")
  , (3576, some "ecotron")
  , (3663, some "electric_collector")
  , (3379, some "sealable")
  , (2845, some "heavy_wire")
  , (49, some "obsidian")
  , (3657, some "petroleum")
  , (3383, some "solar_panel")
  , (212, some "dark_ore")
  , (52, some "spawner")
  , (3572, some "incubator")
  , (7, some "bedrock")
  , (1, some "stone")
  , (0, none) ]

/-- Python `BLOCK_ID_NAMES.get(id)`: `None` both when the key is absent and
when the stored value is `None` (the id-0 entry). -/
def blockIdNamesGet (id : Int) : Option String :=
  match assocGet BLOCK_ID_NAMES id with
  | some v => v
  | none => none

/-- Lines 96-99 of `count_blocks_in_chunk`: the name used as the count key.
The source guard `block_name is None and block.id != 0` is reached only after
air (id 0) was skipped at line 92, so for every id actually classified the
fallback is exactly `str(block.id)`. -/
def blockNameOf (id : Int) : String :=
  match blockIdNamesGet id with
  | some n => n
  | none => toString id

/-- `find_blocks_by_id` (lines 30-50): collect the coordinates of the blocks
whose id equals `block_id`, in encounter order. -/
def find_blocks_by_id (block_id : Int) (blocks : List Block) : List Coord :=
  blocks.foldl
    (fun coordinates b =>
      if block_id = b.id then coordinates ++ [⟨b.x, b.y, b.z⟩] else coordinates)
    []

/-- `find_blocks_in_chunks` (lines 52-75): one singleton mapping
`{(chunk.x, chunk.z): count}` per chunk, in input order; modelled as the
corresponding pair. -/
def find_blocks_in_chunks (block_id : Int) (chunk_list : List Chunk) :
    List ((Int × Int) × Nat) :=
  chunk_list.foldl
    (fun results c =>
      results ++ [((c.x, c.z), (find_blocks_by_id block_id (get_chunk_matrice c)).length)])
    []

/-- One loop iteration of `count_blocks_in_chunk` (lines 91-105): skip air,
classify, increment. -/
def countStep (acc : List (String × Nat)) (b : Block) : List (String × Nat) :=
  if b.id = 0 then acc else bumpCount acc (blockNameOf b.id)

/-- `count_blocks_in_chunk` (lines 89-107): insertion-ordered mapping from
block name to occurrence count, air blocks skipped. -/
def count_blocks_in_chunk (chunk_blocks : List Block) : List (String × Nat) :=
  chunk_blocks.foldl countStep []

/-- Sum of the counts stored in a block-count mapping. -/
def sumValues (d : List (String × Nat)) : Nat := (d.map (·.2)).sum

/-- The location label `f"x:{x*16}, z:{z*16}"` (line 142). -/
def labelXZ (x z : Int) : String :=
  "x:" ++ toString (x * 16) ++ ", z:" ++ toString (z * 16)

/-- The location label of a chunk. -/
def chunkKey (c : Chunk) : String := labelXZ c.x c.z

/-- One chunk of the processing loop of `analyze_world_chunks` (lines 137-143):
count the chunk's blocks and, when the mapping is non-empty, store it in
`blocks_by_location` under the chunk's label. -/
def locStep (acc : List (String × List (String × Nat))) (c : Chunk) :
    List (String × List (String × Nat)) :=
  let block_counts := count_blocks_in_chunk (get_chunk_matrice c)
  if block_counts = [] then acc else assocSet acc (chunkKey c) block_counts

/-- The `blocks_by_location` dictionary after the two nested loops of
`analyze_world_chunks` (lines 129-143); a file is modelled as the chunk list
the provider returns for it. -/
def buildLocations (world : List (List Chunk)) :
    List (String × List (String × Nat)) :=
  world.foldl (fun acc chunk_list => chunk_list.foldl locStep acc) []

/-- The `totals` dictionary (lines 117-121): fixed keys chest, obsidian, rf. -/
structure Totals where
  chest : Nat
  obsidian : Nat
  rf : Nat
deriving DecidableEq, Repr

/-- The single-quote character used by Python `repr` of a string. -/
def pyQuote : String := String.singleton (Char.ofNat 39)

/-- Python `str` of a `dict[str, int]`, as printed by line 147:
`\x7b'key': value, ...\x7d`. -/
def pyDictRepr (d : List (String × Nat)) : String :=
  "\x7b"
    ++ String.intercalate ", "
        (d.map (fun e => pyQuote ++ e.1 ++ pyQuote ++ ": " ++ toString e.2))
    ++ "\x7d"

/-- One iteration of the report loop (lines 146-153): print the location line
and fold the entry's chest/obsidian/rf counts (default 0) into the totals. -/
def reportStep (acc : List String × Totals)
    (e : String × List (String × Nat)) : List String × Totals :=
  ( acc.1 ++ [e.1 ++ ": " ++ pyDictRepr e.2]
  , { rf := acc.2.rf + (assocGet e.2 "rf").getD 0
    , obsidian := acc.2.obsidian + (assocGet e.2 "obsidian").getD 0
    , chest := acc.2.chest + (assocGet e.2 "chest").getD 0 } )

/-- The three summary lines (lines 156-158). -/
def summaryLines (t : Totals) : List String :=
  [ "Total chests: " ++ toString t.chest
  , "Total obsidian: " ++ toString t.obsidian
  , "Total RF blocks: " ++ toString t.rf ]

/-- The output phase of `analyze_world_chunks` (lines 146-158) applied to a
finished location report: the per-location lines then the summary lines. -/
def renderReport (report : List (String × List (String × Nat))) : List String :=
  let p := report.foldl reportStep ([], ⟨0, 0, 0⟩)
  p.1 ++ summaryLines p.2

/-- `analyze_world_chunks` (lines 109-158), modelled as a function of the
data the external provider supplies (each file stands for its chunk list) and
returning the printed lines in order. -/
def analyze_world_chunks (world : List (List Chunk)) : List String :=
  renderReport (buildLocations world)

/-- The final value of the `totals` dictionary of `analyze_world_chunks`. -/
def analyzeTotals (world : List (List Chunk)) : Totals :=
  ((buildLocations world).foldl reportStep ([], ⟨0, 0, 0⟩)).2

/-! ### Fallible-provider model

`analyze_world_chunks` wraps every provider call in no handler; to reason
about failure propagation we re-run the same algorithm against a provider
whose operations may fail, collecting the lines printed before termination. -/

/-- A chunk as enumerated by the provider: grid coordinates only; its block
list comes from a separate, fallible call. -/
structure ChunkPos where
  x : Int
  z : Int
deriving DecidableEq, Repr

/-- Modelled from the spec: the external provider contract (spec section 6,
`chunks` module not under `src/`) — enumerate files, enumerate a file's
chunks, decode a chunk's blocks — with each call allowed to fail. -/
structure ProviderE (E F : Type) where
  mcaFiles : Except E (List F)
  chunksOf : F → Except E (List ChunkPos)
  matriceOf : ChunkPos → Except E (List Block)

/-- The inner chunk loop (lines 137-143) against a fallible provider: the
first decode failure aborts the whole loop. -/
def goChunksE {E F : Type} (p : ProviderE E F) :
    List ChunkPos → List (String × List (String × Nat)) →
    Except E (List (String × List (String × Nat)))
  | [], acc => .ok acc
  | c :: cs, acc =>
    match p.matriceOf c with
    | .error e => .error e
    | .ok block_list =>
      let block_counts := count_blocks_in_chunk block_list
      goChunksE p cs
        (if block_counts = [] then acc else assocSet acc (labelXZ c.x c.z) block_counts)

/-- The outer file loop (lines 129-143) against a fallible provider. -/
def goFilesE {E F : Type} (p : ProviderE E F) :
    List F → List (String × List (String × Nat)) →
    Except E (List (String × List (String × Nat)))
  | [], acc => .ok acc
  | f :: fs, acc =>
    match p.chunksOf f with
    | .error e => .error e
    | .ok cs =>
      match goChunksE p cs acc with
      | .error e => .error e
      | .ok acc₂ => goFilesE p fs acc₂

/-- `analyze_world_chunks` against a fallible provider: the lines printed
before termination, paired with the failure that escaped, if any.  All
printing happens after the processing loops (lines 146-158), so a failure
leaves the printed output empty. -/
def analyze_world_chunksE {E F : Type} (p : ProviderE E F) :
    List String × Option E :=
  match p.mcaFiles with
  | .error e => ([], some e)
  | .ok files =>
    match goFilesE p files [] with
    | .error e => ([], some e)
    | .ok report => (renderReport report, none)

/-- The chunks whose count mapping is non-empty, i.e. those `analyze_world_chunks`
stores in the location report, in processing order. -/
def storedChunks (world : List (List Chunk)) : List Chunk :=
  world.flatten.filter
    (fun c => decide (count_blocks_in_chunk (get_chunk_matrice c) ≠ []))

/-- Every block the run observes, in processing order. -/
def allBlocks (world : List (List Chunk)) : List Block :=
  (world.flatten.map get_chunk_matrice).flatten

/-- The keys of an association list, in order. -/
def keysOf {α β : Type} (d : List (α × β)) : List α := d.map Prod.fst

/-- A block counts toward name `k`: it is not air and classifies to `k`. -/
def matchesName (k : String) (b : Block) : Prop :=
  b.id ≠ 0 ∧ blockNameOf b.id = k

instance (k : String) (b : Block) : Decidable (matchesName k b) :=
  inferInstanceAs (Decidable (_ ∧ _))

/-- The number of blocks of `bs` counting toward name `k`. -/
def matchCount (bs : List Block) (k : String) : Nat :=
  bs.countP (fun b => decide (matchesName k b))

/-- Add a count to an optional stored count, keeping `none` for zero. -/
def optAdd (o : Option Nat) (c : Nat) : Option Nat :=
  match o with
  | some v => some (v + c)
  | none => if c = 0 then none else some c

/-- The characters that can occur in the decimal string form of an integer. -/
def allowedIntChars : List Char :=
  ['-', '0', '1', '2', '3', '4', '5', '6', '7', '8', '9']

/-! ### Association-list lemmas -/

theorem assocGet_assocSet {α β : Type} [DecidableEq α]
    (d : List (α × β)) (k k₂ : α) (v : β) :
    assocGet (assocSet d k v) k₂ = if k = k₂ then some v else assocGet d k₂ := by
  induction d with
  | nil =>
    by_cases h : k = k₂ <;> simp [assocSet, assocGet, h]
  | cons e rest ih =>
    obtain ⟨k₁, v₁⟩ := e
    simp only [assocSet]
    by_cases h₁ : k₁ = k
    · subst h₁
      by_cases h₂ : k₁ = k₂ <;> simp [assocGet, h₂]
    · simp only [if_neg h₁, assocGet]
      by_cases h₂ : k₁ = k₂
      · subst h₂
        simp [assocGet, Ne.symm h₁]
      · simp [assocGet, h₂, ih]

theorem assocSet_of_notMem {α β : Type} [DecidableEq α]
    (d : List (α × β)) (k : α) (v : β) (h : k ∉ keysOf d) :
    assocSet d k v = d ++ [(k, v)] := by
  induction d with
  | nil => simp [assocSet]
  | cons e rest ih =>
    obtain ⟨k₁, v₁⟩ := e
    simp only [keysOf, List.map_cons, List.mem_cons] at h
    push_neg at h
    simp [assocSet, Ne.symm h.1, ih h.2]

theorem assocGet_eq_none_iff {α β : Type} [DecidableEq α]
    (d : List (α × β)) (k : α) :
    assocGet d k = none ↔ k ∉ keysOf d := by
  induction d with
  | nil => simp [assocGet, keysOf]
  | cons e rest ih =>
    obtain ⟨k₁, v₁⟩ := e
    by_cases h : k₁ = k
    · subst h
      simp [assocGet, keysOf]
    · simp only [assocGet, if_neg h]
      rw [ih]
      simp [keysOf, Ne.symm h]

theorem bumpCount_get_self (d : List (String × Nat)) (k : String) :
    assocGet (bumpCount d k) k = some ((assocGet d k).getD 0 + 1) := by
  induction d with
  | nil => simp [bumpCount, assocGet]
  | cons e rest ih =>
    obtain ⟨k₁, v₁⟩ := e
    by_cases h : k₁ = k <;> simp [bumpCount, assocGet, h, ih]

theorem bumpCount_get_other (d : List (String × Nat)) (k k₁ : String)
    (h : k₁ ≠ k) : assocGet (bumpCount d k) k₁ = assocGet d k₁ := by
  induction d with
  | nil => simp [bumpCount, assocGet, Ne.symm h]
  | cons e rest ih =>
    obtain ⟨k₂, v₂⟩ := e
    by_cases h₂ : k₂ = k
    · subst h₂
      simp [bumpCount, assocGet, Ne.symm h]
    · simp only [bumpCount, if_neg h₂, assocGet]
      by_cases h₃ : k₂ = k₁ <;> simp [h₃, ih]

theorem sumValues_bumpCount (d : List (String × Nat)) (k : String) :
    sumValues (bumpCount d k) = sumValues d + 1 := by
  induction d with
  | nil => simp [bumpCount, sumValues]
  | cons e rest ih =>
    obtain ⟨k₁, v₁⟩ := e
    by_cases h : k₁ = k <;> simp [bumpCount, sumValues, h] <;>
      simp [sumValues] at ih <;> omega

theorem keysOf_bumpCount (d : List (String × Nat)) (k : String) :
    keysOf (bumpCount d k) =
      if k ∈ keysOf d then keysOf d else keysOf d ++ [k] := by
  induction d with
  | nil => simp [bumpCount, keysOf]
  | cons e rest ih =>
    obtain ⟨k₁, v₁⟩ := e
    by_cases h : k₁ = k
    · subst h
      simp [bumpCount, keysOf]
    · simp only [bumpCount, if_neg h, keysOf, List.map_cons, List.mem_cons]
      simp only [keysOf] at ih
      rw [ih]
      by_cases hm : k ∈ rest.map Prod.fst <;> simp [hm, Ne.symm h]

/-! ### Characterization of `count_blocks_in_chunk` -/

theorem optAdd_zero (o : Option Nat) : optAdd o 0 = o := by
  cases o <;> simp [optAdd]

theorem optAdd_succ (o : Option Nat) (c : Nat) :
    optAdd (some (o.getD 0 + 1)) c = optAdd o (c + 1) := by
  cases o <;> simp [optAdd] <;> omega

theorem countStep_fold_get (bs : List Block) :
    ∀ (acc : List (String × Nat)) (k : String),
      assocGet (bs.foldl countStep acc) k =
        optAdd (assocGet acc k) (matchCount bs k) := by
  induction bs with
  | nil => intro acc k; simp [matchCount, optAdd_zero]
  | cons b rest ih =>
    intro acc k
    rw [List.foldl_cons]
    by_cases hb : b.id = 0
    · have hm : ¬ matchesName k b := fun h => h.1 hb
      simp [countStep, hb, ih, matchCount, List.countP_cons, hm]
    · by_cases hn : blockNameOf b.id = k
      · have hm : matchesName k b := ⟨hb, hn⟩
        simp only [countStep, if_neg hb, ih, hn, bumpCount_get_self]
        simp [matchCount, List.countP_cons, hm, optAdd_succ]
      · have hm : ¬ matchesName k b := fun h => hn h.2
        simp only [countStep, if_neg hb, ih]
        rw [bumpCount_get_other _ _ _ (fun h => hn h.symm)]
        simp [matchCount, List.countP_cons, hm]

theorem count_blocks_get (bs : List Block) (k : String) :
    assocGet (count_blocks_in_chunk bs) k =
      if matchCount bs k = 0 then none else some (matchCount bs k) := by
  rw [count_blocks_in_chunk, countStep_fold_get]
  simp [assocGet, optAdd]

theorem count_blocks_getD (bs : List Block) (k : String) :
    (assocGet (count_blocks_in_chunk bs) k).getD 0 = matchCount bs k := by
  rw [count_blocks_get]
  split <;> simp_all

theorem countStep_fold_sum (bs : List Block) :
    ∀ acc : List (String × Nat),
      sumValues (bs.foldl countStep acc) =
        sumValues acc + bs.countP (fun b => decide (b.id ≠ 0)) := by
  induction bs with
  | nil => intro acc; simp
  | cons b rest ih =>
    intro acc
    rw [List.foldl_cons]
    by_cases hb : b.id = 0
    · simp [countStep, hb, ih, List.countP_cons]
    · simp [countStep, hb, ih, sumValues_bumpCount, List.countP_cons]
      omega

theorem sumValues_count_blocks (bs : List Block) :
    sumValues (count_blocks_in_chunk bs) =
      bs.countP (fun b => decide (b.id ≠ 0)) := by
  rw [count_blocks_in_chunk, countStep_fold_sum]
  simp [sumValues]

theorem countStep_fold_keys_nodup (bs : List Block) :
    ∀ acc : List (String × Nat),
      (keysOf acc).Nodup → (keysOf (bs.foldl countStep acc)).Nodup := by
  induction bs with
  | nil => intro acc h; exact h
  | cons b rest ih =>
    intro acc h
    rw [List.foldl_cons]
    apply ih
    by_cases hb : b.id = 0
    · simpa [countStep, hb] using h
    · simp only [countStep, if_neg hb, keysOf_bumpCount]
      split
      · exact h
      · next hm => simp [List.nodup_append, h, hm]

theorem count_blocks_keys_nodup (bs : List Block) :
    (keysOf (count_blocks_in_chunk bs)).Nodup :=
  countStep_fold_keys_nodup bs [] (by simp [keysOf])

theorem mem_keys_count_blocks (bs : List Block) (k : String) :
    k ∈ keysOf (count_blocks_in_chunk bs) ↔ matchCount bs k ≠ 0 := by
  have h := assocGet_eq_none_iff (count_blocks_in_chunk bs) k
  rw [count_blocks_get] at h
  by_cases hc : matchCount bs k = 0
  · rw [if_pos hc] at h
    simp only [iff_true_intro rfl, true_iff] at h
    simp [hc, h]
  · rw [if_neg hc] at h
    simp only [iff_iff_implies_and_implies] at h
    have hk : k ∈ keysOf (count_blocks_in_chunk bs) := by
      by_contra hnk
      exact Option.noConfusion (h.2 hnk)
    simp [hc, hk]

/-! ### Scanner lemmas -/

theorem foldl_append_singleton {α β : Type} (f : α → β) (l : List α) :
    ∀ acc : List β,
      l.foldl (fun acc a => acc ++ [f a]) acc = acc ++ l.map f := by
  induction l with
  | nil => intro acc; simp
  | cons a rest ih => intro acc; simp [ih]

theorem find_fold_eq (block_id : Int) (blocks : List Block) :
    ∀ acc : List Coord,
      blocks.foldl
        (fun coordinates b =>
          if block_id = b.id then coordinates ++ [⟨b.x, b.y, b.z⟩] else coordinates)
        acc
      = acc ++ (blocks.filter (fun b => decide (block_id = b.id))).map
          (fun b => (⟨b.x, b.y, b.z⟩ : Coord)) := by
  induction blocks with
  | nil => intro acc; simp
  | cons b rest ih =>
    intro acc
    rw [List.foldl_cons, List.filter_cons]
    by_cases h : block_id = b.id
    · rw [if_pos h, ih]
      simp [h]
    · rw [if_neg h, ih]
      simp [h]

theorem find_blocks_by_id_eq_filterMap (block_id : Int) (blocks : List Block) :
    find_blocks_by_id block_id blocks =
      (blocks.filter (fun b => decide (block_id = b.id))).map
        (fun b => (⟨b.x, b.y, b.z⟩ : Coord)) := by
  rw [find_blocks_by_id, find_fold_eq, List.nil_append]

theorem length_find_blocks_by_id (block_id : Int) (blocks : List Block) :
    (find_blocks_by_id block_id blocks).length =
      blocks.countP (fun b => decide (b.id = block_id)) := by
  rw [find_blocks_by_id_eq_filterMap, List.length_map, ← List.countP_eq_length_filter]
  apply List.countP_congr
  intro b _
  simp [eq_comm]

/-- C3: for every target id and block list, `find_blocks_by_id` returns one
coordinate record per matching block, carrying that block's coordinates, in
encounter order; its length is the number of matching blocks, and an empty
input yields the empty list. -/
theorem find_blocks_by_id_spec (block_id : Int) (blocks : List Block) :
    find_blocks_by_id block_id blocks =
      (blocks.filter (fun b => decide (block_id = b.id))).map
        (fun b => (⟨b.x, b.y, b.z⟩ : Coord)) ∧
    (find_blocks_by_id block_id blocks).length =
      blocks.countP (fun b => decide (b.id = block_id)) ∧
    find_blocks_by_id block_id [] = [] :=
  ⟨find_blocks_by_id_eq_filterMap block_id blocks,
   length_find_blocks_by_id block_id blocks, rfl⟩

/-- C7: `find_blocks_in_chunks` yields exactly one entry per input chunk, in
input order, keyed by the chunk's `(x, z)` pair and valued with the number of
its blocks matching the target id; zero matches still yield an entry (with
count 0, as the map form shows). -/
theorem find_blocks_in_chunks_spec (block_id : Int) (chunk_list : List Chunk) :
    find_blocks_in_chunks block_id chunk_list =
      chunk_list.map
        (fun c => ((c.x, c.z), c.blocks.countP (fun b => decide (b.id = block_id)))) := by
  rw [find_blocks_in_chunks]
  refine (foldl_append_singleton
    (fun c : Chunk =>
      ((c.x, c.z), (find_blocks_by_id block_id (get_chunk_matrice c)).length))
    chunk_list []).trans ?_
  rw [List.nil_append]
  apply List.map_congr_left
  intro c _
  rw [length_find_blocks_by_id]
  rfl

/-- C8: air blocks (id 0) never contribute a key or a count: the result of
`count_blocks_in_chunk` is unchanged when all air blocks are removed from the
input first. -/
theorem count_blocks_skips_air (chunk_blocks : List Block) :
    count_blocks_in_chunk chunk_blocks =
      count_blocks_in_chunk (chunk_blocks.filter (fun b => decide (b.id ≠ 0))) := by
  rw [count_blocks_in_chunk, count_blocks_in_chunk]
  generalize ([] : List (String × Nat)) = acc
  induction chunk_blocks generalizing acc with
  | nil => simp
  | cons b rest ih =>
    by_cases h : b.id = 0
    · simp [countStep, h, ih]
    · simp [countStep, h, List.filter_cons, ih]

/-! ### Classification lemmas -/

theorem assocGet_of_mem_of_nodup {α β : Type} [DecidableEq α]
    {d : List (α × β)} (h : (keysOf d).Nodup) {k : α} {v : β}
    (hm : (k, v) ∈ d) : assocGet d k = some v := by
  induction d with
  | nil => cases hm
  | cons e rest ih =>
    obtain ⟨k₁, v₁⟩ := e
    simp only [keysOf, List.map_cons, List.nodup_cons] at h
    rcases List.mem_cons.mp hm with he | he
    · obtain ⟨rfl, rfl⟩ := Prod.mk.injEq .. ▸ he
      injection he with h1 h2
      simp [assocGet]
    · have hk : k₁ ≠ k := by
        rintro rfl
        exact h.1 (List.mem_map.mpr ⟨(k₁, v), he, rfl⟩)
      simp only [assocGet, if_neg hk]
      exact ih h.2 he

theorem blockNameOf_of_absent (id : Int)
    (habs : ∀ p ∈ BLOCK_ID_NAMES, p.1 ≠ id) :
    blockNameOf id = toString id := by
  have : assocGet BLOCK_ID_NAMES id = none := by
    rw [assocGet_eq_none_iff]
    intro hk
    obtain ⟨p, hp, hpk⟩ := List.mem_map.mp hk
    exact habs p hp hpk
  simp [blockNameOf, blockIdNamesGet, this]

/-- C4: an id present in the static table with a name is classified to that
name; an id absent from the table is classified to its decimal string form. -/
theorem blockNameOf_spec (id : Int) :
    (∀ n : String, (id, some n) ∈ BLOCK_ID_NAMES → blockNameOf id = n) ∧
    ((∀ p ∈ BLOCK_ID_NAMES, p.1 ≠ id) → blockNameOf id = toString id) := by
  constructor
  · intro n hm
    have hnd : (keysOf BLOCK_ID_NAMES).Nodup := by decide
    have := assocGet_of_mem_of_nodup hnd hm
    simp [blockNameOf, blockIdNamesGet, this]
  · exact blockNameOf_of_absent id

/-- Witness for C4 at ids 54 (present, mapped to "chest") and 9999 (absent). -/
theorem blockNameOf_spec_witness :
    blockNameOf 54 = "chest" ∧ blockNameOf 9999 = toString (9999 : Int) :=
  ⟨(blockNameOf_spec 54).1 "chest" (by decide),
   (blockNameOf_spec 9999).2 (by decide)⟩

/-! ### Entry counts of `count_blocks_in_chunk` (claim C1) -/

/-- C1 counterexample: the air-free list with blocks of ids 54 and 146 has
two distinct non-air ids, yet `count_blocks_in_chunk` returns a single entry
(both ids classify to "chest"), so the mapping does not have K = 2 entries. -/
theorem count_blocks_two_ids_one_entry :
    (∀ b ∈ [(⟨54, 0, 0, 0⟩ : Block), ⟨146, 0, 0, 0⟩], b.id ≠ 0) ∧
    ([(⟨54, 0, 0, 0⟩ : Block), ⟨146, 0, 0, 0⟩].map Block.id).toFinset.card = 2 ∧
    (count_blocks_in_chunk [⟨54, 0, 0, 0⟩, ⟨146, 0, 0, 0⟩]).length ≠ 2 :=
  ⟨by decide, by decide, by decide⟩

/-- C1 (amended): for a block list with zero air blocks and N blocks of K
distinct non-air ids, provided no two distinct ids among the blocks classify
to the same name, `count_blocks_in_chunk` returns exactly K entries whose
counts sum to N. -/
theorem count_blocks_entries_spec (bs : List Block)
    (hair : ∀ b ∈ bs, b.id ≠ 0)
    (hinj : ∀ b₁ ∈ bs, ∀ b₂ ∈ bs,
      blockNameOf b₁.id = blockNameOf b₂.id → b₁.id = b₂.id) :
    (count_blocks_in_chunk bs).length = (bs.map Block.id).toFinset.card ∧
    sumValues (count_blocks_in_chunk bs) = bs.length := by
  constructor
  · have hlen : (count_blocks_in_chunk bs).length =
        (keysOf (count_blocks_in_chunk bs)).length := by
      simp [keysOf]
    rw [hlen, ← List.toFinset_card_of_nodup (count_blocks_keys_nodup bs)]
    have hset : (keysOf (count_blocks_in_chunk bs)).toFinset =
        ((bs.map Block.id).map blockNameOf).toFinset := by
      ext k
      simp only [List.mem_toFinset, mem_keys_count_blocks, List.mem_map,
        List.map_map, Function.comp]
      constructor
      · intro h
        have hpos : 0 < bs.countP (fun b => decide (matchesName k b)) :=
          Nat.pos_of_ne_zero h
        obtain ⟨b, hb, hpb⟩ := List.countP_pos_iff.mp hpos
        have hm : matchesName k b := of_decide_eq_true hpb
        exact ⟨b, hb, hm.2⟩
      · rintro ⟨b, hb, rfl⟩
        have : 0 < bs.countP (fun x => decide (matchesName (blockNameOf b.id) x)) :=
          List.countP_pos_iff.mpr
            ⟨b, hb, decide_eq_true ⟨hair b hb, rfl⟩⟩
        exact Nat.pos_iff_ne_zero.mp this
    rw [hset]
    have himg : ((bs.map Block.id).map blockNameOf).toFinset =
        (bs.map Block.id).toFinset.image blockNameOf := by
      ext x
      simp [List.mem_toFinset, List.mem_map, Finset.mem_image]
    rw [himg]
    apply Finset.card_image_of_injOn
    intro x hx y hy hxy
    simp only [Finset.coe_insert, Set.mem_insert_iff, Finset.mem_coe,
      List.mem_toFinset, List.mem_map] at hx hy
    obtain ⟨b₁, hb₁, rfl⟩ := hx
    obtain ⟨b₂, hb₂, rfl⟩ := hy
    exact hinj b₁ hb₁ b₂ hb₂ hxy
  · rw [sumValues_count_blocks]
    exact List.countP_eq_length.mpr fun b hb => decide_eq_true (hair b hb)

/-- Witness for C1 (amended) on the two-block list with ids 54 and 49. -/
theorem count_blocks_entries_spec_witness :
    (count_blocks_in_chunk [⟨54, 1, 2, 3⟩, ⟨49, 0, 0, 0⟩]).length =
      ([(⟨54, 1, 2, 3⟩ : Block), ⟨49, 0, 0, 0⟩].map Block.id).toFinset.card ∧
    sumValues (count_blocks_in_chunk [⟨54, 1, 2, 3⟩, ⟨49, 0, 0, 0⟩]) =
      [(⟨54, 1, 2, 3⟩ : Block), ⟨49, 0, 0, 0⟩].length :=
  count_blocks_entries_spec _ (by decide) (by decide)

/-! ### Location-report lemmas (claims C5, C6, C2) -/

theorem getLast?_cons_or {α : Type} (a : α) (l : List α) :
    (a :: l).getLast? = l.getLast?.or (some a) := by
  induction l generalizing a with
  | nil => simp
  | cons b t ih =>
    rw [List.getLast?_cons_cons, ih b]
    cases t.getLast? <;> simp [Option.or]

theorem locStep_fold_get (cs : List Chunk) :
    ∀ (acc : List (String × List (String × Nat))) (label : String),
      assocGet (cs.foldl locStep acc) label =
        (((cs.filter (fun c => decide (chunkKey c = label ∧
              count_blocks_in_chunk (get_chunk_matrice c) ≠ []))).map
            (fun c => count_blocks_in_chunk (get_chunk_matrice c))).getLast?).or
          (assocGet acc label) := by
  induction cs with
  | nil => intro acc label; simp [Option.or]
  | cons c rest ih =>
    intro acc label
    rw [List.foldl_cons, List.filter_cons]
    by_cases hbc : count_blocks_in_chunk (get_chunk_matrice c) = []
    · have hstep : locStep acc c = acc := by
        simp [locStep, hbc]
      have hpred : ¬ (chunkKey c = label ∧
          count_blocks_in_chunk (get_chunk_matrice c) ≠ []) := fun h => h.2 hbc
      rw [hstep, ih, if_neg (by simpa using hpred)]
    · have hstep : locStep acc c =
          assocSet acc (chunkKey c) (count_blocks_in_chunk (get_chunk_matrice c)) := by
        simp [locStep, hbc]
      by_cases hl : chunkKey c = label
      · have hpred : chunkKey c = label ∧
            count_blocks_in_chunk (get_chunk_matrice c) ≠ [] := ⟨hl, hbc⟩
        rw [hstep, ih, if_pos (by simpa using hpred)]
        rw [List.map_cons, getLast?_cons_or, assocGet_assocSet, if_pos hl]
        cases (((rest.filter _).map _).getLast? :
            Option (List (String × Nat))) <;> simp [Option.or]
      · have hpred : ¬ (chunkKey c = label ∧
            count_blocks_in_chunk (get_chunk_matrice c) ≠ []) := fun h => hl h.1
        rw [hstep, ih, if_neg (by simpa using hpred),
          assocGet_assocSet, if_neg hl]

theorem buildLocations_eq_fold_join (world : List (List Chunk)) :
    buildLocations world = world.flatten.foldl locStep [] := by
  rw [buildLocations]
  generalize ([] : List (String × List (String × Nat))) = acc
  induction world generalizing acc with
  | nil => simp
  | cons cl rest ih => simp [List.flatten, List.foldl_append, ih]

/-- C5: a per-chunk count mapping is stored in the location report exactly
when it is non-empty, under the label built from the chunk coordinates scaled
by 16, and when several chunks yield the same label the last one wins; in
particular the chunk at (5, -3) is labelled "x:80, z:-48". -/
theorem location_report_spec :
    (∀ (world : List (List Chunk)) (label : String),
      assocGet (buildLocations world) label =
        ((world.flatten.filter (fun c => decide (chunkKey c = label ∧
              count_blocks_in_chunk (get_chunk_matrice c) ≠ []))).map
            (fun c => count_blocks_in_chunk (get_chunk_matrice c))).getLast?) ∧
    chunkKey ⟨5, -3, []⟩ = "x:80, z:-48" := by
  constructor
  · intro world label
    rw [buildLocations_eq_fold_join, locStep_fold_get]
    cases h : (((world.flatten.filter _).map _).getLast? :
        Option (List (String × Nat))) <;> simp [Option.or, assocGet]
  · rfl

theorem reportStep_fold (report : List (String × List (String × Nat))) :
    ∀ acc : List String × Totals,
      report.foldl reportStep acc =
        ( acc.1 ++ report.map (fun e => e.1 ++ ": " ++ pyDictRepr e.2)
        , ⟨ acc.2.chest + (report.map (fun e => (assocGet e.2 "chest").getD 0)).sum
          , acc.2.obsidian + (report.map (fun e => (assocGet e.2 "obsidian").getD 0)).sum
          , acc.2.rf + (report.map (fun e => (assocGet e.2 "rf").getD 0)).sum ⟩ ) := by
  induction report with
  | nil => intro acc; simp
  | cons e rest ih =>
    intro acc
    rw [List.foldl_cons, ih]
    simp only [reportStep, List.map_cons, List.sum_cons]
    refine Prod.ext ?_ ?_
    · simp
    · simp only [Totals.mk.injEq]
      refine ⟨?_, ?_, ?_⟩ <;> dsimp <;> omega

/-- C6: the analyzer's output is one line per stored report entry, in
insertion order, each the location label followed by its count mapping, then
exactly the three summary lines (chests, obsidian, RF) whose numbers are the
per-entry chest/obsidian/rf counts (0 when absent) summed in order. -/
theorem analyze_output_spec (world : List (List Chunk)) :
    analyze_world_chunks world =
      (buildLocations world).map (fun e => e.1 ++ ": " ++ pyDictRepr e.2) ++
      [ "Total chests: " ++
          toString ((buildLocations world).map
            (fun e => (assocGet e.2 "chest").getD 0)).sum
      , "Total obsidian: " ++
          toString ((buildLocations world).map
            (fun e => (assocGet e.2 "obsidian").getD 0)).sum
      , "Total RF blocks: " ++
          toString ((buildLocations world).map
            (fun e => (assocGet e.2 "rf").getD 0)).sum ] := by
  rw [analyze_world_chunks, renderReport, reportStep_fold]
  simp [summaryLines]

/-! ### Exactness of the totals (claim C2) -/

theorem matchCount_of_count_blocks_empty {bs : List Block}
    (h : count_blocks_in_chunk bs = []) (k : String) : matchCount bs k = 0 := by
  have hg := count_blocks_get bs k
  rw [h] at hg
  by_cases hc : matchCount bs k = 0
  · exact hc
  · rw [if_neg hc] at hg
    exact Option.noConfusion hg

theorem locStep_fold_nodup (cs : List Chunk) :
    ∀ acc : List (String × List (String × Nat)),
      (keysOf acc ++
        (cs.filter (fun c =>
          decide (count_blocks_in_chunk (get_chunk_matrice c) ≠ []))).map chunkKey).Nodup →
      cs.foldl locStep acc =
        acc ++ (cs.filter (fun c =>
          decide (count_blocks_in_chunk (get_chunk_matrice c) ≠ []))).map
            (fun c => (chunkKey c, count_blocks_in_chunk (get_chunk_matrice c))) := by
  induction cs with
  | nil => intro acc _; simp
  | cons c rest ih =>
    intro acc h
    rw [List.foldl_cons]
    rw [List.filter_cons] at h ⊢
    by_cases hbc : count_blocks_in_chunk (get_chunk_matrice c) = []
    · have hstep : locStep acc c = acc := by simp [locStep, hbc]
      rw [if_neg (by simpa using hbc)] at h ⊢
      rw [hstep]
      exact ih acc h
    · rw [if_pos (by simpa using hbc)] at h ⊢
      rw [List.map_cons] at h
      have hnotin : chunkKey c ∉ keysOf acc := by
        rw [List.nodup_append] at h
        exact fun hin => h.2.2 hin (List.mem_cons_self _ _)
      have hstep : locStep acc c =
          acc ++ [(chunkKey c, count_blocks_in_chunk (get_chunk_matrice c))] := by
        simp only [locStep, if_neg hbc]
        exact assocSet_of_notMem _ _ _ hnotin
      rw [hstep, ih]
      · simp
      · simpa [keysOf, List.append_assoc, List.singleton_append] using h

theorem sum_map_filter_of_zero {α : Type} (p : α → Bool) (f : α → Nat)
    (l : List α) (h : ∀ a ∈ l, p a = false → f a = 0) :
    ((l.filter p).map f).sum = (l.map f).sum := by
  induction l with
  | nil => simp
  | cons a rest ih =>
    rw [List.filter_cons]
    by_cases hp : p a
    · simp only [if_pos hp, List.map_cons, List.sum_cons]
      rw [ih fun x hx => h x (List.mem_cons_of_mem a hx)]
    · rw [if_neg hp, List.map_cons, List.sum_cons,
        h a (List.mem_cons_self a rest) (by simpa using hp),
        ih fun x hx => h x (List.mem_cons_of_mem a hx)]
      omega

theorem matchCount_flatten (cs : List Chunk) (k : String) :
    matchCount ((cs.map get_chunk_matrice).flatten) k =
      (cs.map (fun c => matchCount (get_chunk_matrice c) k)).sum := by
  induction cs with
  | nil => simp [matchCount]
  | cons c rest ih =>
    rw [List.map_cons, List.flatten_cons, List.map_cons, List.sum_cons, ← ih]
    simp [matchCount]

/-- C2 counterexample: with two provider-supplied chunks at the same
coordinates, each holding one chest block, the final totals report 1 chest
while 2 chest blocks were observed across the processed chunks. -/
theorem analyze_totals_collision :
    analyzeTotals [[⟨0, 0, [⟨54, 1, 2, 3⟩]⟩, ⟨0, 0, [⟨54, 1, 2, 3⟩]⟩]] =
      ⟨1, 0, 0⟩ ∧
    matchCount (allBlocks [[⟨0, 0, [⟨54, 1, 2, 3⟩]⟩, ⟨0, 0, [⟨54, 1, 2, 3⟩]⟩]])
      "chest" = 2 ∧
    (analyzeTotals [[⟨0, 0, [⟨54, 1, 2, 3⟩]⟩, ⟨0, 0, [⟨54, 1, 2, 3⟩]⟩]]).chest ≠
      matchCount (allBlocks [[⟨0, 0, [⟨54, 1, 2, 3⟩]⟩, ⟨0, 0, [⟨54, 1, 2, 3⟩]⟩]])
        "chest" :=
  ⟨by decide, by decide, by decide⟩

/-- C2 (amended): every stored per-chunk count is positive and equals the
exact number of matching non-air blocks of that chunk, and — provided no two
chunks stored in the report share a location label — each final total equals
the exact number of matching blocks observed across all processed chunks. -/
theorem analyze_counts_exact (world : List (List Chunk))
    (hkeys : ((storedChunks world).map chunkKey).Nodup) :
    (∀ (bs : List Block) (k : String) (v : Nat),
        assocGet (count_blocks_in_chunk bs) k = some v →
          0 < v ∧ v = matchCount bs k) ∧
    analyzeTotals world =
      ⟨ matchCount (allBlocks world) "chest"
      , matchCount (allBlocks world) "obsidian"
      , matchCount (allBlocks world) "rf" ⟩ := by
  constructor
  · intro bs k v h
    rw [count_blocks_get] at h
    by_cases hc : matchCount bs k = 0
    · rw [if_pos hc] at h
      exact Option.noConfusion h
    · rw [if_neg hc] at h
      injection h with h
      exact ⟨h ▸ Nat.pos_of_ne_zero hc, h.symm⟩
  · have hb : buildLocations world =
        (storedChunks world).map
          (fun c => (chunkKey c, count_blocks_in_chunk (get_chunk_matrice c))) := by
      rw [buildLocations_eq_fold_join]
      rw [locStep_fold_nodup world.flatten []
        (by simpa [storedChunks, keysOf] using hkeys)]
      simp [storedChunks]
    have hfield : ∀ k : String,
        (((storedChunks world).map
          (fun c => (chunkKey c, count_blocks_in_chunk (get_chunk_matrice c)))).map
            (fun e => (assocGet e.2 k).getD 0)).sum =
          matchCount (allBlocks world) k := by
      intro k
      rw [List.map_map]
      have h1 : ((storedChunks world).map
          ((fun e : String × List (String × Nat) => (assocGet e.2 k).getD 0) ∘
            (fun c => (chunkKey c, count_blocks_in_chunk (get_chunk_matrice c))))) =
          (storedChunks world).map
            (fun c => matchCount (get_chunk_matrice c) k) := by
        apply List.map_congr_left
        intro c _
        simp only [Function.comp]
        exact count_blocks_getD _ _
      rw [h1, storedChunks,
        sum_map_filter_of_zero _ _ _
          (fun c _ hpc =>
            matchCount_of_count_blocks_empty (by simpa using hpc) k),
        ← matchCount_flatten]
      rfl
    rw [analyzeTotals, hb, reportStep_fold]
    dsimp only
    rw [Totals.mk.injEq]
    refine ⟨?_, ?_, ?_⟩ <;> rw [Nat.zero_add, hfield]

/-- Witness for C2 (amended) on a single chunk at (5, -3) holding four RF
blocks. -/
theorem analyze_counts_exact_witness :
    analyzeTotals [[⟨5, -3, [⟨3886, 0, 0, 0⟩, ⟨3886, 0, 1, 0⟩, ⟨3886, 0, 2, 0⟩,
        ⟨3886, 0, 3, 0⟩]⟩]] =
      ⟨ matchCount (allBlocks [[⟨5, -3, [⟨3886, 0, 0, 0⟩, ⟨3886, 0, 1, 0⟩,
          ⟨3886, 0, 2, 0⟩, ⟨3886, 0, 3, 0⟩]⟩]]) "chest"
      , matchCount (allBlocks [[⟨5, -3, [⟨3886, 0, 0, 0⟩, ⟨3886, 0, 1, 0⟩,
          ⟨3886, 0, 2, 0⟩, ⟨3886, 0, 3, 0⟩]⟩]]) "obsidian"
      , matchCount (allBlocks [[⟨5, -3, [⟨3886, 0, 0, 0⟩, ⟨3886, 0, 1, 0⟩,
          ⟨3886, 0, 2, 0⟩, ⟨3886, 0, 3, 0⟩]⟩]]) "rf" ⟩ :=
  (analyze_counts_exact _ (by decide)).2

/-! ### Failure propagation (claim C9) -/

/-- C9: `analyze_world_chunks` catches nothing: a failure of the provider
during file discovery surfaces as-is; a failure anywhere during file/chunk
processing surfaces as-is; and whenever the run terminates with a failure, no
report line was printed at all. -/
theorem analyzeE_failure_spec :
    (∀ (E F : Type) (p : ProviderE E F) (e : E),
        p.mcaFiles = .error e → analyze_world_chunksE p = ([], some e)) ∧
    (∀ (E F : Type) (p : ProviderE E F) (files : List F) (e : E),
        p.mcaFiles = .ok files → goFilesE p files [] = .error e →
          analyze_world_chunksE p = ([], some e)) ∧
    (∀ (E F : Type) (p : ProviderE E F),
        (analyze_world_chunksE p).2.isSome → (analyze_world_chunksE p).1 = []) := by
  refine ⟨?_, ?_, ?_⟩
  · intro E F p e h
    simp [analyze_world_chunksE, h]
  · intro E F p files e hf hg
    simp [analyze_world_chunksE, hf, hg]
  · intro E F p h
    rw [analyze_world_chunksE] at h ⊢
    cases hm : p.mcaFiles with
    | error e => simp [hm]
    | ok files =>
      rw [hm] at h
      dsimp only at h
      cases hg : goFilesE p files [] with
      | error e => simp [hm, hg]
      | ok report =>
        rw [hg] at h
        simp at h

/-- Witness for C9: a provider whose chunk decode fails with error 7
terminates the run with that error and prints nothing. -/
theorem analyzeE_failure_spec_witness :
    analyze_world_chunksE
      { mcaFiles := (.ok [()] : Except Nat (List Unit))
      , chunksOf := fun _ => .ok [⟨0, 0⟩]
      , matriceOf := fun _ => .error 7 } = ([], some 7) :=
  analyzeE_failure_spec.2.1 Nat Unit _ [()] 7 rfl rfl

/-! ### Fallback names never collide with table names (claim C10) -/

theorem digitChar_mem_allowed : ∀ m : Nat, m < 10 →
    Nat.digitChar m ∈ allowedIntChars := by decide

theorem toDigitsCore_chars :
    ∀ (fuel n : Nat) (ds : List Char),
      (∀ c ∈ ds, c ∈ allowedIntChars) →
      ∀ c ∈ Nat.toDigitsCore 10 fuel n ds, c ∈ allowedIntChars := by
  intro fuel
  induction fuel with
  | zero => intro n ds h c hc; exact h c hc
  | succ f ih =>
    intro n ds h c hc
    simp only [Nat.toDigitsCore] at hc
    split at hc
    · rcases List.mem_cons.mp hc with rfl | hc
      · exact digitChar_mem_allowed _ (Nat.mod_lt _ (by omega))
      · exact h c hc
    · refine ih (n / 10) (Nat.digitChar (n % 10) :: ds) ?_ c hc
      intro c' hc'
      rcases List.mem_cons.mp hc' with rfl | hc'
      · exact digitChar_mem_allowed _ (Nat.mod_lt _ (by omega))
      · exact h c' hc'

theorem natRepr_chars (n : Nat) :
    ∀ c ∈ (Nat.repr n).data, c ∈ allowedIntChars := by
  intro c hc
  have hd : (Nat.repr n).data = Nat.toDigitsCore 10 (n + 1) n [] := rfl
  rw [hd] at hc
  exact toDigitsCore_chars (n + 1) n [] (by simp) c hc

theorem intToString_chars (i : Int) :
    ∀ c ∈ (toString i).data, c ∈ allowedIntChars := by
  intro c hc
  cases i with
  | ofNat m =>
    have hd : (toString (Int.ofNat m)).data = (Nat.repr m).data := rfl
    rw [hd] at hc
    exact natRepr_chars m c hc
  | negSucc m =>
    have hd : toString (Int.negSucc m) = "-" ++ Nat.repr (m + 1) := rfl
    rw [hd, String.data_append] at hc
    rcases List.mem_append.mp hc with h | h
    · have hm : ("-" : String).data = ['-'] := rfl
      rw [hm] at h
      rcases List.mem_singleton.mp h with rfl
      simp [allowedIntChars]
    · exact natRepr_chars (m + 1) c h

theorem table_names_not_numeric :
    ∀ p ∈ BLOCK_ID_NAMES, ∀ s ∈ p.2.toList,
      ∃ c ∈ s.data, c ∉ allowedIntChars := by decide

/-- C10: for an id absent from the static table, its decimal string form —
and hence the classification key the fallback produces for it — differs from
every name stored in the table, so fallback keys never merge with
table-lookup keys in a count mapping. -/
theorem fallback_never_merges (id : Int)
    (habs : ∀ p ∈ BLOCK_ID_NAMES, p.1 ≠ id) :
    ∀ p ∈ BLOCK_ID_NAMES, ∀ s : String, p.2 = some s →
      toString id ≠ s ∧ blockNameOf id ≠ s := by
  intro p hp s hs
  obtain ⟨c, hc, hbad⟩ := table_names_not_numeric p hp s (by simp [hs])
  have hne : toString id ≠ s := by
    intro h
    exact hbad (intToString_chars id c (h ▸ hc))
  exact ⟨hne, by rw [blockNameOf_of_absent id habs]; exact hne⟩

/-- Witness for C10: id 9999 is absent from the table and its fallback name
differs from the table name "chest". -/
theorem fallback_never_merges_witness :
    toString (9999 : Int) ≠ "chest" ∧ blockNameOf 9999 ≠ "chest" :=
  fallback_never_merges 9999 (by decide) (54, some "chest") (by decide)
    "chest" rfl

end Nationcraft
